import Mathlib

/-!
Verification development for the `currencyconverter` repository
(`currency_converter/currency_converter.py`).

The Python module is shallowly embedded:
* calendar dates become proleptic-Gregorian ordinals (`Nat`, same day
  numbering as Python's `datetime.date.toordinal`);
* rates (`float` / `decimal.Decimal`) become `ℚ`: the claims under study
  concern the exact arithmetic structure of the computations, which ℚ
  represents faithfully for both of the source's numeric back ends;
* the per-currency dict `self._rates[currency]` becomes either a partial
  map `Nat → Option (Option ℚ)` (outer `Option` = key present in the dict,
  inner `Option` = stored value, `none` being Python's explicit `None`
  marker) or, after gap materialization, a positional list of values over
  the consecutive dates of the currency's bounds;
* raised exceptions become `Except` errors.
-/

deriving instance DecidableEq for Except

namespace CurrencyConv

/-! ### Character-level helpers

These model the Python `str` operations used by the loader: `str.strip`,
`str.split(',')`, `int(s)` and `float(s)` on the (ASCII) token shapes that
occur in rate files.
-/

/-- Digits of a decimal token folded into a `Nat` (most significant first). -/
def digitsToNat (cs : List Char) : Nat :=
  cs.foldl (fun a c => a * 10 + (c.toNat - 48)) 0

/-- Models `str.strip()` (whitespace removal at both ends). -/
def pyStrip (cs : List Char) : List Char :=
  ((cs.dropWhile Char.isWhitespace).reverse.dropWhile Char.isWhitespace).reverse

/-- Models `str.split(sep)` for a one-character separator. -/
def splitOnChar (sep : Char) : List Char → List (List Char)
  | [] => [[]]
  | c :: rest =>
    let r := splitOnChar sep rest
    if c = sep then [] :: r
    else
      match r with
      | t :: ts => (c :: t) :: ts
      | [] => [[c]]

/-- Models `line.strip().split(',')`, producing `String` tokens. -/
def tokenizeLine (s : String) : List String :=
  (splitOnChar ',' (pyStrip s.toList)).map (fun cs => String.mk cs)

/-- Models Python `int(s)` on a decimal string: surrounding whitespace and an
optional sign are accepted, then at least one ASCII digit.  (Underscore
separators and non-ASCII digits, which Python also accepts, do not occur in
rate files and are out of scope.) -/
def pythonInt (cs0 : List Char) : Option Int :=
  let cs := pyStrip cs0
  match cs with
  | '-' :: rest =>
    if rest ≠ [] ∧ rest.all Char.isDigit then some (-(digitsToNat rest : Int)) else none
  | '+' :: rest =>
    if rest ≠ [] ∧ rest.all Char.isDigit then some (digitsToNat rest : Int) else none
  | rest =>
    if rest ≠ [] ∧ rest.all Char.isDigit then some (digitsToNat rest : Int) else none

/-- Models `float(s)` / `Decimal(s)` on the plain decimal literals found in
rate files: optional sign, digits with an optional decimal point.
(Exponents, `inf`/`nan` are out of scope.)  The result is the exact rational
value of the literal. -/
def parseRat (s : String) : Option ℚ :=
  let cs0 := pyStrip s.toList
  let signAndRest : ℚ × List Char :=
    match cs0 with
    | '-' :: rest => (-1, rest)
    | '+' :: rest => (1, rest)
    | _ => (1, cs0)
  match splitOnChar '.' signAndRest.2 with
  | [ip] =>
    if ip ≠ [] ∧ ip.all Char.isDigit then some (signAndRest.1 * (digitsToNat ip : ℚ)) else none
  | [ip, fp] =>
    if (ip ≠ [] ∨ fp ≠ []) ∧ ip.all Char.isDigit ∧ fp.all Char.isDigit then
      some (signAndRest.1 * ((digitsToNat ip : ℚ) + (digitsToNat fp : ℚ) / (10 : ℚ) ^ fp.length))
    else none
  | _ => none

/-! ### Dates

`PyDate` models a validated `datetime.date`; `toOrdinal` is
`datetime.date.toordinal` (proleptic Gregorian day number, 0001-01-01 = 1).
-/

/-- A validated calendar date (`datetime.date`). -/
structure PyDate where
  year : Nat
  month : Nat
  day : Nat
deriving DecidableEq

/-- Gregorian leap-year rule. -/
def isLeapYear (y : Nat) : Bool :=
  y % 4 = 0 ∧ (y % 100 ≠ 0 ∨ y % 400 = 0)

/-- Number of days in a month of a given year. -/
def daysInMonth (y m : Nat) : Nat :=
  if m = 2 then (if isLeapYear y then 29 else 28)
  else if m = 4 ∨ m = 6 ∨ m = 9 ∨ m = 11 then 30
  else 31

/-- Days in year `y` before the first day of month `m`. -/
def daysBeforeMonth (y m : Nat) : Nat :=
  (List.range (m - 1)).foldl (fun a i => a + daysInMonth y (i + 1)) 0

/-- Proleptic-Gregorian ordinal of a date, as `datetime.date.toordinal`. -/
def toOrdinal (d : PyDate) : Nat :=
  let n := d.year - 1
  n * 365 + n / 4 - n / 100 + n / 400 + daysBeforeMonth d.year d.month + d.day

/-- Failure modes of the first parsing attempt in `parse_date`
(source line 75).  Both are a `ValueError` in Python; the constructors record
which statement raised: `intFail` from one of the `int(...)` slices
(a structurally malformed token), `dateRange` from the `datetime.date`
constructor (well-formed integers whose values are out of range). -/
inductive PrimFail
  | intFail
  | dateRange
deriving DecidableEq

/-- Models the `datetime.date(y, m, d)` constructor together with its
`ValueError` range checks (`MINYEAR = 1 ≤ y ≤ 9999 = MAXYEAR`, month and
day ranges). -/
def dateCreate (y m d : Int) : Except PrimFail PyDate :=
  if 1 ≤ y ∧ y ≤ 9999 ∧ 1 ≤ m ∧ m ≤ 12 ∧ 1 ≤ d ∧ d ≤ (daysInMonth y.toNat m.toNat : Int) then
    .ok ⟨y.toNat, m.toNat, d.toNat⟩
  else .error .dateRange

/-- Models `datetime.date(int(s[:4]), int(s[5:7]), int(s[8:10]))`
(source line 75).  Python string slicing clamps out-of-range indices, as
`List.take` / `List.drop` do here. -/
def primaryParse (cs : List Char) : Except PrimFail PyDate :=
  match pythonInt (cs.take 4), pythonInt ((cs.drop 5).take 2), pythonInt ((cs.drop 8).take 2) with
  | some y, some m, some d => dateCreate y m d
  | _, _, _ => .error .intFail

/-- The twelve month names recognised by `strptime`'s `%B` directive in the C
locale, lower-cased (the matching is case-insensitive). -/
def monthNames : List (String × Nat) :=
  [("january", 1), ("february", 2), ("march", 3), ("april", 4), ("may", 5), ("june", 6),
   ("july", 7), ("august", 8), ("september", 9), ("october", 10), ("november", 11),
   ("december", 12)]

/-- Case-insensitively strips a (lower-case) name from the front of `cs`. -/
def stripNameCI (name : List Char) (cs : List Char) : Option (List Char) :=
  if (cs.take name.length).map Char.toLower = name then some (cs.drop name.length) else none

/-- Matches the `%B` directive: one of the month names, case-insensitively. -/
def parseMonthName : List (String × Nat) → List Char → Option (Nat × List Char)
  | [], _ => none
  | (nm, v) :: rest, cs =>
    match stripNameCI nm.toList cs with
    | some cs1 => some (v, cs1)
    | none => parseMonthName rest cs

/-- Matches the `%d` directive, whose CPython regular expression is
`3[01]|[12]\d|0[1-9]|[1-9]`: two digits in 01..31, or a single digit 1..9. -/
def parseDay : List Char → Option (Nat × List Char)
  | [] => none
  | [a] => if '1' ≤ a ∧ a ≤ '9' then some (a.toNat - 48, []) else none
  | a :: b :: rest =>
    if a.isDigit ∧ b.isDigit then
      if (a = '3' ∧ (b = '0' ∨ b = '1')) ∨ a = '1' ∨ a = '2' ∨ (a = '0' ∧ b ≠ '0') then
        some ((a.toNat - 48) * 10 + (b.toNat - 48), rest)
      else if '1' ≤ a then some (a.toNat - 48, b :: rest)
      else none
    else if '1' ≤ a ∧ a ≤ '9' then some (a.toNat - 48, b :: rest)
    else none

/-- Matches a literal whitespace in a `strptime` format, which CPython
translates to the regular expression `\s+`. -/
def parseSpaces1 : List Char → Option (List Char)
  | [] => none
  | c :: rest => if c.isWhitespace then some (rest.dropWhile Char.isWhitespace) else none

/-- Matches the `%Y` directive (exactly four digits in CPython). -/
def parseYear4 : List Char → Option (Nat × List Char)
  | a :: b :: c :: d :: rest =>
    if a.isDigit ∧ b.isDigit ∧ c.isDigit ∧ d.isDigit then
      some (digitsToNat [a, b, c, d], rest)
    else none
  | _ => none

/-- Models `datetime.datetime.strptime(s, '%d %B %Y').date()`
(source line 77): the whole string must match the format, and the matched
numbers must form a valid date. -/
def secondaryParse (cs : List Char) : Option PyDate := do
  let (day, cs1) ← parseDay cs
  let cs2 ← parseSpaces1 cs1
  let (mon, cs3) ← parseMonthName monthNames cs2
  let cs4 ← parseSpaces1 cs3
  let (y, cs5) ← parseYear4 cs4
  if cs5 = [] ∧ 1 ≤ y ∧ 1 ≤ day ∧ day ≤ daysInMonth y mon then some ⟨y, mon, day⟩ else none

/-- Errors surfaced by `parse_date`.  Python raises a `ValueError` in both
cases; the constructors record the distinct raising statements (and distinct
messages): `strptimeNoMatch` from the fallback `strptime` call,
`primaryRange` from the range checks of the `datetime.date` constructor. -/
inductive DateParseError
  | primaryRange
  | strptimeNoMatch
deriving DecidableEq

/-- Models `parse_date` (source lines 71-77): try the fast `%Y-%m-%d` parse;
on any `ValueError` — from the `int` conversions or from the
`datetime.date` range checks alike, since the bare `except ValueError`
catches both — fall back to `strptime(s, '%d %B %Y')`. -/
def parse_date (s : String) : Except DateParseError PyDate :=
  match primaryParse s.toList with
  | .ok d => .ok d
  | .error _ =>
    match secondaryParse s.toList with
    | some d => .ok d
    | none => .error .strptimeNoMatch

/-- Modelled from the spec (for comparison with `parse_date`): the spec's
§4.1 description of `parse_date`, under which the secondary format is tried
only when the first parse "fails structurally (not a value-range error)", so
a value-range failure (e.g. month 13) is surfaced directly without
attempting the fallback. -/
def parseDateSpec (s : String) : Except DateParseError PyDate :=
  match primaryParse s.toList with
  | .ok d => .ok d
  | .error .dateRange => .error .primaryRange
  | .error .intFail =>
    match secondaryParse s.toList with
    | some d => .ok d
    | none => .error .strptimeNoMatch

/-! ### Date enumeration and gap materialization -/

/-- Models `list_dates_between` (source lines 64-68): all ordinals from
`first` to `last` inclusive; empty when `last < first` (in Python,
`range` of a non-positive length). -/
def list_dates_between (first last : Nat) : List Nat :=
  (List.range (last + 1 - first)).map (fun n => first + n)

/-- One per-currency dict `self._rates[currency]` before materialization:
the observed `date ↦ rate` entries, as an association list. -/
abbrev ObsRates := List (Nat × ℚ)

/-- Dict lookup in a per-currency observed-rates dict. -/
def lookupObs (obs : ObsRates) (d : Nat) : Option ℚ :=
  (obs.find? (fun p => p.1 = d)).map (fun p => p.2)

/-- The observed dict viewed as a partial map into stored values
(outer `Option` = key present, inner `Option` = stored value, never `none`
before materialization). -/
def obsMap (obs : ObsRates) : Nat → Option (Option ℚ) :=
  fun d => (lookupObs obs d).map some

/-- The loop body of `_set_missing_to_none` over an arbitrary date list:
`for date in ds: if date not in rates: rates[date] = None`. -/
def fillDates (rates : Nat → Option (Option ℚ)) (ds : List Nat) : Nat → Option (Option ℚ) :=
  ds.foldl (fun acc d => if (acc d).isSome then acc else fun x => if x = d then some none else acc x)
    rates

/-- Models `_set_missing_to_none` (source lines 212-219): every date of the
currency's bounds that is not yet a key is inserted with value `None`. -/
def set_missing_to_none (rates : Nat → Option (Option ℚ)) (first last : Nat) :
    Nat → Option (Option ℚ) :=
  fillDates rates (list_dates_between first last)

/-- The materialized per-currency dict read off in ascending key order: the
value stored at `first + i` at position `i`.  After `_set_missing_to_none`
the keys are exactly the dates from `first` to `last` (theorem
`fillDates_apply` below), so iterating `sorted(rates)` visits exactly these
positions. -/
def mat_list (obs : ObsRates) (first last : Nat) : List (Option ℚ) :=
  (list_dates_between first last).map (fun d => (set_missing_to_none (obsMap obs) first last d).join)

/-! ### The two gap-filling methods

Both operate on the materialized value list in ascending date order, which is
exactly how the Python code iterates `sorted(rates)`.  Since materialization
makes the dates consecutive, one list position equals one day.
-/

/-- The first loop of `_use_linear_interpolation` (source lines 240-247):
walk forward keeping the most recent observed rate and the distance (in
days) since it; for each missing date emit that pair (`tmp[date][0]`), for
an observed date emit nothing.  The state is `some (closest_rate, dist)`
once an observed rate has been seen.  While the state is still `none`,
Python would raise `NameError` on `dist += 1` (unbound local); that branch
is unreachable after materialization because the first date of the bounds is
an observed one, and is modelled as emitting no entry. -/
def forwardPass (st : Option (ℚ × Nat)) : List (Option ℚ) → List (Option (ℚ × Nat))
  | [] => []
  | some r :: rest => none :: forwardPass (some (r, 0)) rest
  | none :: rest =>
    match st with
    | some (r, dist) => some (r, dist + 1) :: forwardPass (some (r, dist + 1)) rest
    | none => none :: forwardPass none rest

/-- The second loop of `_use_linear_interpolation` (source lines 249-256):
the same walk over `sorted(rates, reverse=True)`, emitting `tmp[date][1]`. -/
def backwardPass (l : List (Option ℚ)) : List (Option (ℚ × Nat)) :=
  (forwardPass none l.reverse).reverse

/-- The third loop's assignment `rates[date] = (r0*d1 + r1*d0) / (d0 + d1)`
(source line 260), applied only at missing dates (`tmp` holds only those);
observed entries are left as they are.  When one of the two neighbours is
absent Python would raise (unpacking `None`); that branch is unreachable
after materialization (both endpoints of the bounds are observed) and is
modelled as leaving the entry missing. -/
def combineNeighbors : Option ℚ → Option (ℚ × Nat) × Option (ℚ × Nat) → Option ℚ
  | some r, _ => some r
  | none, (some (r0, d0), some (r1, d1)) =>
    some ((r0 * (d1 : ℚ) + r1 * (d0 : ℚ)) / ((d0 : ℚ) + (d1 : ℚ)))
  | none, (_, _) => none

/-- Models `_use_linear_interpolation` (source lines 228-263) on the
materialized value list. -/
def use_linear_interpolation (l : List (Option ℚ)) : List (Option ℚ) :=
  List.zipWith combineNeighbors l ((forwardPass none l).zip (backwardPass l))

/-- Models `_use_last_known` (source lines 265-282) on the materialized
value list: a single forward pass where every missing date takes the most
recently observed value.  The state is `some last_rate` once a rate has been
seen; while it is `none` Python would raise `NameError` on reading
`last_rate` (unreachable after materialization, first date observed). -/
def use_last_known (st : Option ℚ) : List (Option ℚ) → List (Option ℚ)
  | [] => []
  | some r :: rest => some r :: use_last_known (some r) rest
  | none :: rest =>
    match st with
    | some r => some r :: use_last_known (some r) rest
    | none => none :: use_last_known none rest

/-! ### Loader -/

/-- Construction-time configuration of `CurrencyConverter.__init__`
(source lines 109-150).  `decimal` and `verbose` are omitted: the numeric
representation is modelled uniformly by ℚ, and `verbose` only prints. -/
structure Config where
  fallbackOnWrongDate : Bool
  fallbackOnMissingRate : Bool
  fallbackOnMissingRateMethod : String
  refCurrency : String
  naValues : List String
deriving DecidableEq

/-- Fatal load-time failures of `load_lines`.  In Python: `StopIteration`
escaping from `next` on an empty stream, `ValueError` from `parse_date`,
from `float`/`Decimal`, from `min()` over no currencies in
`_compute_bounds`, and the explicit `ValueError` for an unknown fallback
method (source line 202). -/
inductive LoadError
  | noHeader
  | badDate (tok : String)
  | badRate (tok : String)
  | emptyRates
  | unknownMethod (m : String)
deriving DecidableEq

/-- Dict update `self._rates[currency][date] = value` for the inner dict. -/
def insertDateRate (obs : ObsRates) (d : Nat) (v : ℚ) : ObsRates :=
  match obs with
  | [] => [(d, v)]
  | p :: rest => if p.1 = d then (d, v) :: rest else p :: insertDateRate rest d v

/-- Dict update `self._rates[currency][date] = value` for the outer
`defaultdict(dict)`: the currency key is created on first assignment. -/
def insertObs (tbl : List (String × ObsRates)) (cur : String) (d : Nat) (v : ℚ) :
    List (String × ObsRates) :=
  match tbl with
  | [] => [(cur, [(d, v)])]
  | p :: rest => if p.1 = cur then (cur, insertDateRate p.2 d v) :: rest else p :: insertObs rest cur d v

/-- Processing of one data line (source lines 182-188): split, parse the
date once, then for every `(currency, rate)` pair of `zip(header, line[1:])`
record the cast value unless the raw token is a missing value or the header
column is empty. -/
def parseLineEntries (cfg : Config) (header : List String) (line : String) :
    Except LoadError (Nat × List (String × ℚ)) :=
  let tokens := tokenizeLine line
  match parse_date (tokens.headD "") with
  | .error _ => .error (.badDate (tokens.headD ""))
  | .ok d =>
    (((header.zip tokens.tail).foldlM (fun acc p =>
        if cfg.naValues.contains p.2 = false ∧ String.mk (pyStrip p.1.toList) ≠ "" then
          match parseRat p.2 with
          | some v => Except.ok (acc ++ [(String.mk (pyStrip p.1.toList), v)])
          | none => Except.error (LoadError.badRate p.2)
        else Except.ok acc) ([] : List (String × ℚ))).map
      (fun entries => (toOrdinal d, entries)))

/-- The loaded converter: its configuration and the observed-rates table
`self._rates` (currency ↦ observed `date ↦ rate` entries).  The derived
attributes — `currencies`, `bounds`, and the dict contents after
materialization and gap filling — are recomputed by the accessors below;
they depend only on this data. -/
structure LoadedState where
  cfg : Config
  ratesTable : List (String × ObsRates)
deriving DecidableEq

/-- The data-line loop of `load_lines` (source lines 182-188), building
`self._rates` from the data lines under the given header. -/
def buildRatesTable (cfg : Config) (header : List String) (dataLines : List String) :
    Except LoadError (List (String × ObsRates)) :=
  dataLines.foldlM (fun tbl line =>
      (parseLineEntries cfg header line).map
        (fun de => de.2.foldl (fun t p => insertObs t p.1 de.1 p.2) tbl))
    ([] : List (String × ObsRates))

/-- Models `load_lines` (source lines 174-202): read the header, build
`self._rates` from the data lines, then (per currency) materialize gaps and
apply the configured fill method, raising for an unrecognized method name.
The per-currency loop is modelled by its two effects: the validation
(errors: no currency at all makes `_compute_bounds`'s `min()` raise; an
unknown method name with `fallback_on_missing_rate` set raises at the first
currency) and the dict contents, which the accessors recompute from the
observed table. -/
def loadLines (cfg : Config) (lines : List String) : Except LoadError LoadedState :=
  match lines with
  | [] => .error .noHeader
  | headerLine :: dataLines =>
    (buildRatesTable cfg (tokenizeLine headerLine).tail dataLines).bind
      (fun tbl =>
        if tbl.isEmpty then .error .emptyRates
        else if cfg.fallbackOnMissingRate = true ∧
            cfg.fallbackOnMissingRateMethod ≠ "linear_interpolation" ∧
            cfg.fallbackOnMissingRateMethod ≠ "last_known" then
          .error (.unknownMethod cfg.fallbackOnMissingRateMethod)
        else .ok ⟨cfg, tbl⟩)

/-! ### Derived attributes of a loaded converter -/

/-- Outer dict lookup `self._rates[currency]` (read-only view). -/
def lookupTable (tbl : List (String × ObsRates)) (cur : String) : Option ObsRates :=
  (tbl.find? (fun p => p.1 = cur)).map (fun p => p.2)

/-- Smallest key of a per-currency dict (`min(r)` in `_compute_bounds`). -/
def minKey : ObsRates → Option Nat
  | [] => none
  | p :: rest =>
    match minKey rest with
    | none => some p.1
    | some m => some (min p.1 m)

/-- Largest key of a per-currency dict (`max(r)` in `_compute_bounds`). -/
def maxKey : ObsRates → Option Nat
  | [] => none
  | p :: rest =>
    match maxKey rest with
    | none => some p.1
    | some m => some (max p.1 m)

/-- `bounds[currency].first_date` for a currency of `self._rates`. -/
def firstDateOf (obs : ObsRates) : Nat := (minKey obs).getD 0

/-- `bounds[currency].last_date` for a currency of `self._rates`. -/
def lastDateOf (obs : ObsRates) : Nat := (maxKey obs).getD 0

/-- Models `self.bounds` (source lines 204-210): per-currency
`(min key, max key)`, with the reference currency's entry set (or
overwritten) to the pointwise min/max over all per-currency bounds. -/
def boundsOf (st : LoadedState) (cur : String) : Option (Nat × Nat) :=
  if cur = st.cfg.refCurrency then
    match st.ratesTable.map (fun p => (firstDateOf p.2, lastDateOf p.2)) with
    | [] => none
    | b :: bs => some (bs.foldl (fun a q => (min a.1 q.1, max a.2 q.2)) b)
  else (lookupTable st.ratesTable cur).map (fun obs => (firstDateOf obs, lastDateOf obs))

/-- Models membership in `self.currencies = set(self._rates) | {ref}`
(source line 190). -/
def currenciesOf (st : LoadedState) (c : String) : Bool :=
  st.ratesTable.any (fun p => p.1 = c) || c = st.cfg.refCurrency

/-- The per-currency dict contents after `_set_missing_to_none` and the
configured fill method, in ascending key order.  The unknown-method branch
never fills; it is unreachable in a loaded state because `load_lines`
raised in that configuration. -/
def currencyFilled (cfg : Config) (obs : ObsRates) : List (Option ℚ) :=
  let l := mat_list obs (firstDateOf obs) (lastDateOf obs)
  if cfg.fallbackOnMissingRate = true then
    if cfg.fallbackOnMissingRateMethod = "linear_interpolation" then use_linear_interpolation l
    else if cfg.fallbackOnMissingRateMethod = "last_known" then use_last_known none l
    else l
  else l

/-- Dict lookup `date ∈ self._rates[currency]` / `self._rates[currency][date]`
after loading: the keys are exactly the dates of the currency's bounds
(theorem `fillDates_apply`; the fill methods update values in place and
never add or remove keys), and the value at `first + i` is position `i` of
the filled list. -/
def ratesLookup (st : LoadedState) (cur : String) (d : Nat) : Option (Option ℚ) :=
  match lookupTable st.ratesTable cur with
  | none => none
  | some obs =>
    if firstDateOf obs ≤ d ∧ d ≤ lastDateOf obs then
      (currencyFilled st.cfg obs).get? (d - firstDateOf obs)
    else none

/-! ### Rate resolution and conversion -/

/-- Failure modes of `_get_rate`.  `notInBounds` and `noRate` are the two
`RateNotFoundError` raises (source lines 304 and 322); `assertionFailed` is
the `AssertionError` of line 312; `keyMissing` models the `KeyError` a plain
dict lookup would raise on an absent key. -/
inductive GetRateError
  | notInBounds (date : Nat) (currency : String) (first last : Nat)
  | noRate (currency : String) (date : Nat)
  | assertionFailed
  | keyMissing
deriving DecidableEq

/-- Is the error a `RateNotFoundError`? -/
def GetRateError.isRateNotFound : GetRateError → Bool
  | .notInBounds _ _ _ _ => true
  | .noRate _ _ => true
  | _ => false

/-- Models `rate = self._rates[currency][date]` followed by the `None` check
(source lines 320-323). -/
def rateAt (st : LoadedState) (currency : String) (d : Nat) : Except GetRateError ℚ :=
  match ratesLookup st currency d with
  | none => .error .keyMissing
  | some none => .error (.noRate currency d)
  | some (some r) => .ok r

/-- Models `_get_rate` (source lines 284-323): the reference currency
resolves to 1 with no lookup; a date absent from the currency's dict is
out of bounds — fatal without the wrong-date fallback, otherwise clamped to
the nearer bound; finally the stored value is returned unless it is the
explicit `None` marker. -/
def get_rate (st : LoadedState) (currency : String) (date : Nat) : Except GetRateError ℚ :=
  if currency = st.cfg.refCurrency then .ok 1
  else if (ratesLookup st currency date).isSome then rateAt st currency date
  else
    match boundsOf st currency with
    | none => .error .keyMissing
    | some (first, last) =>
      if st.cfg.fallbackOnWrongDate = false then .error (.notInBounds date currency first last)
      else if date < first then rateAt st currency first
      else if date > last then rateAt st currency last
      else .error .assertionFailed

/-- Failure modes of `convert`: the `ValueError` for an unsupported currency
(source line 349), a propagated `RateNotFoundError` (or other `_get_rate`
failure), and the `KeyError` a missing `bounds` entry would raise when
defaulting the date (unreachable for member currencies). -/
inductive ConvertError
  | invalidCurrency (c : String)
  | rateError (e : GetRateError)
  | boundsKeyMissing
deriving DecidableEq

/-- Models `convert` (source lines 325-362): validate both currency codes,
default a missing date to `bounds[currency].last_date`, resolve both rates
and return `amount / r0 * r1`. -/
def convert (st : LoadedState) (amount : ℚ) (currency newCurrency : String)
    (date : Option Nat) : Except ConvertError ℚ :=
  if currenciesOf st currency = false then .error (.invalidCurrency currency)
  else if currenciesOf st newCurrency = false then .error (.invalidCurrency newCurrency)
  else
    match (match date with
           | some d => Except.ok d
           | none =>
             match boundsOf st currency with
             | some b => Except.ok b.2
             | none => Except.error ConvertError.boundsKeyMissing) with
    | .error e => .error e
    | .ok d =>
      match get_rate st currency d, get_rate st newCurrency d with
      | .ok r0, .ok r1 => .ok (amount / r0 * r1)
      | .error e, _ => .error (.rateError e)
      | .ok _, .error e => .error (.rateError e)

/-- A call of `convert` with the defaulted parameters of its Python
signature: `new_currency='EUR'` (the literal, not the configured reference
currency) and `date=None`. -/
def convertDefault (st : LoadedState) (amount : ℚ) (currency : String) : Except ConvertError ℚ :=
  convert st amount currency "EUR" none

/-- The state-transformer view of `convert`: the method reads
`self.currencies`, `self.bounds` and `self._rates` but assigns to no
attribute (source lines 325-362), so the converter value is returned
unchanged whether the call succeeds or raises. -/
def convertWithState (st : LoadedState) (amount : ℚ) (currency newCurrency : String)
    (date : Option Nat) : Except ConvertError ℚ × LoadedState :=
  (convert st amount currency newCurrency date, st)

end CurrencyConv

namespace CurrencyConv

/-! ### Lemmas: gap materialization -/

/-- Pointwise description of the `_set_missing_to_none` loop body: an
existing entry is untouched, a date of the list becomes an explicit `None`,
all other dates stay absent. -/
theorem fillDates_apply (rates : Nat → Option (Option ℚ)) (ds : List Nat) (x : Nat) :
    fillDates rates ds x =
      match rates x with
      | some v => some v
      | none => if x ∈ ds then some none else none := by
  induction ds generalizing rates with
  | nil => cases h : rates x <;> simp [fillDates, h]
  | cons d rest ih =>
    have hstep : fillDates rates (d :: rest) x =
        fillDates (if (rates d).isSome then rates
                   else fun y => if y = d then some none else rates y) rest x := by
      simp [fillDates]
    rw [hstep, ih]
    by_cases hd : (rates d).isSome
    · simp only [hd, if_true]
      cases hx : rates x with
      | some v => rfl
      | none =>
        by_cases hxd : x = d
        · subst hxd; rw [hx] at hd; simp at hd
        · simp [List.mem_cons, hxd]
    · simp only [hd, if_false, Bool.false_eq_true]
      by_cases hxd : x = d
      · subst hxd
        cases hx : rates x with
        | some v => rw [hx] at hd; simp at hd
        | none => simp [List.mem_cons]
      · simp only [hxd, if_false]
        cases hx : rates x with
        | some v => rfl
        | none => simp [List.mem_cons, hxd]

/-- Length of an inclusive date range. -/
theorem length_list_dates_between (first last : Nat) :
    (list_dates_between first last).length = last + 1 - first := by
  simp [list_dates_between]

/-- The `i`-th date of an inclusive date range. -/
theorem getElem?_list_dates_between (first last i : Nat) (h : i < last + 1 - first) :
    (list_dates_between first last)[i]? = some (first + i) := by
  simp [list_dates_between, List.getElem?_map, List.getElem?_range h]

/-- Membership in an inclusive date range. -/
theorem mem_list_dates_between (first last x : Nat) :
    x ∈ list_dates_between first last ↔ first ≤ x ∧ x ≤ last := by
  simp only [list_dates_between, List.mem_map, List.mem_range]
  constructor
  · rintro ⟨n, hn, rfl⟩; omega
  · rintro ⟨h1, h2⟩; exact ⟨x - first, by omega, by omega⟩

/-- Length of the materialized value list. -/
theorem length_mat_list (obs : ObsRates) (first last : Nat) :
    (mat_list obs first last).length = last + 1 - first := by
  simp [mat_list, length_list_dates_between]

/-- The materialized value at position `i` is the observed rate at date
`first + i` when one exists, and the explicit `None` marker otherwise. -/
theorem getElem?_mat_list (obs : ObsRates) (first last i : Nat) (h : i < last + 1 - first) :
    (mat_list obs first last)[i]? = some (lookupObs obs (first + i)) := by
  simp only [mat_list, List.getElem?_map, getElem?_list_dates_between first last i h,
    Option.map_some']
  rw [set_missing_to_none, fillDates_apply]
  cases hx : obsMap obs (first + i) with
  | some v =>
    simp only [obsMap] at hx
    cases hl : lookupObs obs (first + i) with
    | some r => rw [hl] at hx; simp at hx; simp [← hx]
    | none => rw [hl] at hx; simp at hx
  | none =>
    simp only [obsMap] at hx
    cases hl : lookupObs obs (first + i) with
    | some r => rw [hl] at hx; simp at hx
    | none =>
      have hmem : (first + i) ∈ list_dates_between first last := by
        rw [mem_list_dates_between]; omega
      simp [hmem]

end CurrencyConv

namespace CurrencyConv

/-! ### Lemmas: the forward/backward interpolation passes -/

/-- The forward pass emits one entry per input entry. -/
theorem length_forwardPass (st : Option (ℚ × Nat)) (l : List (Option ℚ)) :
    (forwardPass st l).length = l.length := by
  induction l generalizing st with
  | nil => rfl
  | cons a rest ih =>
    cases a with
    | some r => simp [forwardPass, ih]
    | none =>
      cases st with
      | none => simp [forwardPass, ih]
      | some p => obtain ⟨r, d⟩ := p; simp [forwardPass, ih]

/-- Walking over missing entries only, the forward pass carries its state
through, incrementing the distance once per entry. -/
theorem forwardPass_after_obs (l : List (Option ℚ)) (r : ℚ) (dist i : Nat)
    (hall : ∀ t, t ≤ i → l[t]? = some none) :
    (forwardPass (some (r, dist)) l)[i]? = some (some (r, dist + i + 1)) := by
  induction l generalizing dist i with
  | nil => have h0 := hall 0 (Nat.zero_le _); simp at h0
  | cons a rest ih =>
    have h0 := hall 0 (Nat.zero_le _)
    simp only [List.getElem?_cons_zero, Option.some.injEq] at h0
    subst h0
    cases i with
    | zero => simp [forwardPass]
    | succ i1 =>
      have hall1 : ∀ t, t ≤ i1 → rest[t]? = some none := by
        intro t ht
        have := hall (t + 1) (by omega)
        simpa using this
      simp only [forwardPass, List.getElem?_cons_succ]
      rw [ih (dist + 1) i1 hall1]
      congr 3
      omega

/-- At a missing entry whose nearest earlier observed entry sits `i - j`
positions back (with only missing entries in between), the forward pass
emits that observed rate with distance `i - j` — regardless of the initial
state. -/
theorem forwardPass_nearest (l : List (Option ℚ)) (st : Option (ℚ × Nat)) (i j : Nat)
    (r0 : ℚ) (hj : l[j]? = some (some r0)) (hji : j < i)
    (hgap : ∀ t, j < t → t < i → l[t]? = some none)
    (hi : l[i]? = some none) :
    (forwardPass st l)[i]? = some (some (r0, i - j)) := by
  induction l generalizing st i j with
  | nil => simp at hj
  | cons a rest ih =>
    cases j with
    | zero =>
      simp only [List.getElem?_cons_zero, Option.some.injEq] at hj
      subst hj
      cases i with
      | zero => omega
      | succ i1 =>
        have hall : ∀ t, t ≤ i1 → rest[t]? = some none := by
          intro t ht
          rcases Nat.lt_or_ge t i1 with hlt | hge
          · have := hgap (t + 1) (by omega) (by omega)
            simpa using this
          · have heq : t = i1 := by omega
            subst heq
            simpa using hi
        simp only [forwardPass, List.getElem?_cons_succ]
        rw [forwardPass_after_obs rest r0 0 i1 hall]
        congr 3
        omega
    | succ j1 =>
      cases i with
      | zero => omega
      | succ i1 =>
        have hj1 : rest[j1]? = some (some r0) := by simpa using hj
        have hi1 : rest[i1]? = some none := by simpa using hi
        have hgap1 : ∀ t, j1 < t → t < i1 → rest[t]? = some none := by
          intro t h1 h2
          have := hgap (t + 1) (by omega) (by omega)
          simpa using this
        have hsub : i1 + 1 - (j1 + 1) = i1 - j1 := by omega
        cases a with
        | some ra =>
          simp only [forwardPass, List.getElem?_cons_succ, hsub]
          exact ih (some (ra, 0)) i1 j1 hj1 (by omega) hgap1 hi1
        | none =>
          cases st with
          | none =>
            simp only [forwardPass, List.getElem?_cons_succ, hsub]
            exact ih none i1 j1 hj1 (by omega) hgap1 hi1
          | some p =>
            obtain ⟨r, d⟩ := p
            simp only [forwardPass, List.getElem?_cons_succ, hsub]
            exact ih (some (r, d + 1)) i1 j1 hj1 (by omega) hgap1 hi1

/-- The forward pass emits no entry at an observed position. -/
theorem forwardPass_obs (l : List (Option ℚ)) (st : Option (ℚ × Nat)) (i : Nat) (r : ℚ)
    (hi : l[i]? = some (some r)) :
    (forwardPass st l)[i]? = some none := by
  induction l generalizing st i with
  | nil => simp at hi
  | cons a rest ih =>
    cases i with
    | zero =>
      simp only [List.getElem?_cons_zero, Option.some.injEq] at hi
      subst hi
      simp [forwardPass]
    | succ i1 =>
      have hi1 : rest[i1]? = some (some r) := by simpa using hi
      cases a with
      | some ra => simp only [forwardPass, List.getElem?_cons_succ]; exact ih _ i1 hi1
      | none =>
        cases st with
        | none => simp only [forwardPass, List.getElem?_cons_succ]; exact ih _ i1 hi1
        | some p =>
          obtain ⟨r2, d⟩ := p
          simp only [forwardPass, List.getElem?_cons_succ]; exact ih _ i1 hi1

/-- The backward pass has the same length as its input. -/
theorem length_backwardPass (l : List (Option ℚ)) :
    (backwardPass l).length = l.length := by
  simp [backwardPass, length_forwardPass]

/-- At a missing entry whose nearest later observed entry sits `k - i`
positions ahead (with only missing entries in between), the backward pass
emits that observed rate with distance `k - i`. -/
theorem backwardPass_nearest (l : List (Option ℚ)) (i k : Nat) (r1 : ℚ)
    (hk : l[k]? = some (some r1)) (hik : i < k)
    (hgap : ∀ t, i < t → t < k → l[t]? = some none)
    (hi : l[i]? = some none) :
    (backwardPass l)[i]? = some (some (r1, k - i)) := by
  have hklen : k < l.length := by
    by_contra hcon
    rw [List.getElem?_eq_none (by omega)] at hk
    exact Option.noConfusion hk
  have hilen : i < l.length := by omega
  have hrevk : l.reverse[l.length - 1 - k]? = some (some r1) := by
    rw [List.getElem?_reverse (by omega)]
    have : l.length - 1 - (l.length - 1 - k) = k := by omega
    rw [this]; exact hk
  have hrevi : l.reverse[l.length - 1 - i]? = some none := by
    rw [List.getElem?_reverse (by omega)]
    have : l.length - 1 - (l.length - 1 - i) = i := by omega
    rw [this]; exact hi
  have hrevgap : ∀ t, l.length - 1 - k < t → t < l.length - 1 - i → l.reverse[t]? = some none := by
    intro t h1 h2
    have htlen : t < l.length := by omega
    rw [List.getElem?_reverse htlen]
    exact hgap (l.length - 1 - t) (by omega) (by omega)
  have hpass := forwardPass_nearest l.reverse none (l.length - 1 - i) (l.length - 1 - k) r1
    hrevk (by omega) hrevgap hrevi
  have hlenf : (forwardPass none l.reverse).length = l.length := by
    rw [length_forwardPass, List.length_reverse]
  rw [backwardPass, List.getElem?_reverse (by rw [hlenf]; omega), hlenf]
  have harith : l.length - 1 - i - (l.length - 1 - k) = k - i := by omega
  rw [harith] at hpass
  exact hpass

end CurrencyConv

namespace CurrencyConv

/-! ### Lemmas: the linear-interpolation fill -/

/-- Linear interpolation preserves the length of the value list. -/
theorem length_use_linear_interpolation (l : List (Option ℚ)) :
    (use_linear_interpolation l).length = l.length := by
  simp [use_linear_interpolation, List.length_zipWith, List.length_zip,
    length_forwardPass, length_backwardPass]

/-- Linear interpolation leaves observed entries unchanged. -/
theorem use_linear_interpolation_obs (l : List (Option ℚ)) (i : Nat) (r : ℚ)
    (hi : l[i]? = some (some r)) :
    (use_linear_interpolation l)[i]? = some (some r) := by
  have hilen : i < l.length := by
    by_contra hcon
    rw [List.getElem?_eq_none (by omega)] at hi
    exact Option.noConfusion hi
  have hi1 : i < (use_linear_interpolation l).length := by
    rw [length_use_linear_interpolation]; exact hilen
  have hif : i < (forwardPass none l).length := by rw [length_forwardPass]; exact hilen
  have hib : i < (backwardPass l).length := by rw [length_backwardPass]; exact hilen
  have hiz : i < ((forwardPass none l).zip (backwardPass l)).length := by
    rw [List.length_zip]; omega
  rw [List.getElem?_eq_getElem hi1]
  have hval : l[i] = some r := by
    have := List.getElem?_eq_getElem hilen
    rw [hi] at this
    exact (Option.some.injEq _ _ ▸ this.symm)
  simp only [use_linear_interpolation, List.getElem_zipWith, hval, combineNeighbors]

/-- The value filled at a missing entry: with the nearest earlier observed
rate `r0` at distance `d0 = i - j` and the nearest later observed rate `r1`
at distance `d1 = k - i`, the entry becomes
`(r0 * d1 + r1 * d0) / (d0 + d1)`. -/
theorem use_linear_interpolation_missing (l : List (Option ℚ)) (i j k : Nat) (r0 r1 : ℚ)
    (hj : l[j]? = some (some r0)) (hk : l[k]? = some (some r1))
    (hji : j < i) (hik : i < k)
    (hgapl : ∀ t, j < t → t < i → l[t]? = some none)
    (hgapr : ∀ t, i < t → t < k → l[t]? = some none)
    (hi : l[i]? = some none) :
    (use_linear_interpolation l)[i]? =
      some (some ((r0 * ((k - i : Nat) : ℚ) + r1 * ((i - j : Nat) : ℚ)) /
        (((i - j : Nat) : ℚ) + ((k - i : Nat) : ℚ)))) := by
  have hilen : i < l.length := by
    by_contra hcon
    rw [List.getElem?_eq_none (by omega)] at hi
    exact Option.noConfusion hi
  have hi1 : i < (use_linear_interpolation l).length := by
    rw [length_use_linear_interpolation]; exact hilen
  have hif : i < (forwardPass none l).length := by rw [length_forwardPass]; exact hilen
  have hib : i < (backwardPass l).length := by rw [length_backwardPass]; exact hilen
  have hfwd := forwardPass_nearest l none i j r0 hj hji hgapl hi
  have hbwd := backwardPass_nearest l i k r1 hk hik hgapr hi
  have hval : l[i] = none := by
    have := List.getElem?_eq_getElem hilen
    rw [hi] at this
    exact (Option.some.injEq _ _ ▸ this.symm)
  have hfwdval : (forwardPass none l)[i] = some (r0, i - j) := by
    have := List.getElem?_eq_getElem hif
    rw [hfwd] at this
    exact (Option.some.injEq _ _ ▸ this.symm)
  have hbwdval : (backwardPass l)[i] = some (r1, k - i) := by
    have := List.getElem?_eq_getElem hib
    rw [hbwd] at this
    exact (Option.some.injEq _ _ ▸ this.symm)
  rw [List.getElem?_eq_getElem hi1]
  simp only [use_linear_interpolation, List.getElem_zipWith, List.getElem_zip, hval,
    hfwdval, hbwdval, combineNeighbors]

/-! ### Lemmas: the last-known fill -/

/-- The last-known fill preserves the length of the value list. -/
theorem length_use_last_known (st : Option ℚ) (l : List (Option ℚ)) :
    (use_last_known st l).length = l.length := by
  induction l generalizing st with
  | nil => rfl
  | cons a rest ih =>
    cases a with
    | some r => simp [use_last_known, ih]
    | none =>
      cases st with
      | none => simp [use_last_known, ih]
      | some r => simp [use_last_known, ih]

/-- The last-known fill leaves observed entries unchanged. -/
theorem use_last_known_obs (l : List (Option ℚ)) (st : Option ℚ) (i : Nat) (r : ℚ)
    (hi : l[i]? = some (some r)) :
    (use_last_known st l)[i]? = some (some r) := by
  induction l generalizing st i with
  | nil => simp at hi
  | cons a rest ih =>
    cases i with
    | zero =>
      simp only [List.getElem?_cons_zero, Option.some.injEq] at hi
      subst hi
      simp [use_last_known]
    | succ i1 =>
      have hi1 : rest[i1]? = some (some r) := by simpa using hi
      cases a with
      | some ra => simp only [use_last_known, List.getElem?_cons_succ]; exact ih _ i1 hi1
      | none =>
        cases st with
        | none => simp only [use_last_known, List.getElem?_cons_succ]; exact ih _ i1 hi1
        | some r2 => simp only [use_last_known, List.getElem?_cons_succ]; exact ih _ i1 hi1

/-- Carrying a last-known rate over missing entries only. -/
theorem use_last_known_after_obs (l : List (Option ℚ)) (r : ℚ) (i : Nat)
    (hall : ∀ t, t ≤ i → l[t]? = some none) :
    (use_last_known (some r) l)[i]? = some (some r) := by
  induction l generalizing i with
  | nil => have h0 := hall 0 (Nat.zero_le _); simp at h0
  | cons a rest ih =>
    have h0 := hall 0 (Nat.zero_le _)
    simp only [List.getElem?_cons_zero, Option.some.injEq] at h0
    subst h0
    cases i with
    | zero => simp [use_last_known]
    | succ i1 =>
      have hall1 : ∀ t, t ≤ i1 → rest[t]? = some none := by
        intro t ht
        have := hall (t + 1) (by omega)
        simpa using this
      simp only [use_last_known, List.getElem?_cons_succ]
      exact ih i1 hall1

/-- At a missing entry, the last-known fill stores the most recently
observed rate at or before it — regardless of the initial state. -/
theorem use_last_known_missing (l : List (Option ℚ)) (st : Option ℚ) (i j : Nat) (r : ℚ)
    (hj : l[j]? = some (some r)) (hji : j < i)
    (hgap : ∀ t, j < t → t < i → l[t]? = some none)
    (hi : l[i]? = some none) :
    (use_last_known st l)[i]? = some (some r) := by
  induction l generalizing st i j with
  | nil => simp at hj
  | cons a rest ih =>
    cases j with
    | zero =>
      simp only [List.getElem?_cons_zero, Option.some.injEq] at hj
      subst hj
      cases i with
      | zero => omega
      | succ i1 =>
        have hall : ∀ t, t ≤ i1 → rest[t]? = some none := by
          intro t ht
          rcases Nat.lt_or_ge t i1 with hlt | hge
          · have := hgap (t + 1) (by omega) (by omega)
            simpa using this
          · have heq : t = i1 := by omega
            subst heq
            simpa using hi
        simp only [use_last_known, List.getElem?_cons_succ]
        exact use_last_known_after_obs rest r i1 hall
    | succ j1 =>
      cases i with
      | zero => omega
      | succ i1 =>
        have hj1 : rest[j1]? = some (some r) := by simpa using hj
        have hi1 : rest[i1]? = some none := by simpa using hi
        have hgap1 : ∀ t, j1 < t → t < i1 → rest[t]? = some none := by
          intro t h1 h2
          have := hgap (t + 1) (by omega) (by omega)
          simpa using this
        cases a with
        | some ra =>
          simp only [use_last_known, List.getElem?_cons_succ]
          exact ih (some ra) i1 j1 hj1 (by omega) hgap1 hi1
        | none =>
          cases st with
          | none =>
            simp only [use_last_known, List.getElem?_cons_succ]
            exact ih none i1 j1 hj1 (by omega) hgap1 hi1
          | some r2 =>
            simp only [use_last_known, List.getElem?_cons_succ]
            exact ih (some r2) i1 j1 hj1 (by omega) hgap1 hi1

end CurrencyConv

namespace CurrencyConv

/-! ### Lemmas: bounds keys -/

/-- A nonempty dict has a minimum key. -/
theorem minKey_isSome (obs : ObsRates) (h : obs ≠ []) : (minKey obs).isSome := by
  cases obs with
  | nil => exact absurd rfl h
  | cons q rest =>
    simp only [minKey]
    cases minKey rest <;> simp

/-- A nonempty dict has a maximum key. -/
theorem maxKey_isSome (obs : ObsRates) (h : obs ≠ []) : (maxKey obs).isSome := by
  cases obs with
  | nil => exact absurd rfl h
  | cons q rest =>
    simp only [maxKey]
    cases maxKey rest <;> simp

/-- The minimum key is a key. -/
theorem minKey_mem (obs : ObsRates) : ∀ m, minKey obs = some m → ∃ p ∈ obs, p.1 = m := by
  induction obs with
  | nil => intro m h; simp [minKey] at h
  | cons q rest ih =>
    intro m h
    simp only [minKey] at h
    cases hr : minKey rest with
    | none =>
      rw [hr] at h
      simp only [Option.some.injEq] at h
      exact ⟨q, by simp, h⟩
    | some m2 =>
      rw [hr] at h
      simp only [Option.some.injEq] at h
      rcases Nat.le_total q.1 m2 with hle | hle
      · exact ⟨q, by simp, by omega⟩
      · obtain ⟨p, hp, hpm⟩ := ih m2 hr
        exact ⟨p, by simp [hp], by omega⟩

/-- The minimum key bounds every key from below. -/
theorem minKey_le (obs : ObsRates) : ∀ m, minKey obs = some m → ∀ p ∈ obs, m ≤ p.1 := by
  induction obs with
  | nil => simp
  | cons q rest ih =>
    intro m h p hp
    simp only [minKey] at h
    cases hr : minKey rest with
    | none =>
      rw [hr] at h
      simp only [Option.some.injEq] at h
      rcases List.mem_cons.mp hp with hq | hrest
      · subst hq; omega
      · cases rest with
        | nil => simp at hrest
        | cons a b =>
          have := minKey_isSome (a :: b) (by simp)
          rw [hr] at this
          simp at this
    | some m2 =>
      rw [hr] at h
      simp only [Option.some.injEq] at h
      rcases List.mem_cons.mp hp with hq | hrest
      · subst hq; omega
      · have := ih m2 hr p hrest; omega

/-- The maximum key is a key. -/
theorem maxKey_mem (obs : ObsRates) : ∀ m, maxKey obs = some m → ∃ p ∈ obs, p.1 = m := by
  induction obs with
  | nil => intro m h; simp [maxKey] at h
  | cons q rest ih =>
    intro m h
    simp only [maxKey] at h
    cases hr : maxKey rest with
    | none =>
      rw [hr] at h
      simp only [Option.some.injEq] at h
      exact ⟨q, by simp, h⟩
    | some m2 =>
      rw [hr] at h
      simp only [Option.some.injEq] at h
      rcases Nat.le_total q.1 m2 with hle | hle
      · obtain ⟨p, hp, hpm⟩ := ih m2 hr
        exact ⟨p, by simp [hp], by omega⟩
      · exact ⟨q, by simp, by omega⟩

/-- The maximum key bounds every key from above. -/
theorem le_maxKey (obs : ObsRates) : ∀ m, maxKey obs = some m → ∀ p ∈ obs, p.1 ≤ m := by
  induction obs with
  | nil => simp
  | cons q rest ih =>
    intro m h p hp
    simp only [maxKey] at h
    cases hr : maxKey rest with
    | none =>
      rw [hr] at h
      simp only [Option.some.injEq] at h
      rcases List.mem_cons.mp hp with hq | hrest
      · subst hq; omega
      · cases rest with
        | nil => simp at hrest
        | cons a b =>
          have := maxKey_isSome (a :: b) (by simp)
          rw [hr] at this
          simp at this
    | some m2 =>
      rw [hr] at h
      simp only [Option.some.injEq] at h
      rcases List.mem_cons.mp hp with hq | hrest
      · subst hq; omega
      · have := ih m2 hr p hrest; omega

/-- A key of the dict has a stored value. -/
theorem lookupObs_of_key (obs : ObsRates) (p : Nat × ℚ) (hp : p ∈ obs) :
    ∃ v, lookupObs obs p.1 = some v := by
  induction obs with
  | nil => simp at hp
  | cons q rest ih =>
    rcases List.mem_cons.mp hp with hq | hrest
    · subst hq
      exact ⟨p.2, by simp [lookupObs]⟩
    · by_cases hqp : q.1 = p.1
      · exact ⟨q.2, by simp [lookupObs, hqp]⟩
      · obtain ⟨v, hv⟩ := ih hrest
        refine ⟨v, ?_⟩
        simp only [lookupObs, List.find?_cons] at hv ⊢
        rw [decide_eq_false hqp]
        exact hv

/-- First and last date of a nonempty per-currency dict are in order. -/
theorem firstDateOf_le_lastDateOf (obs : ObsRates) (h : obs ≠ []) :
    firstDateOf obs ≤ lastDateOf obs := by
  obtain ⟨m, hm⟩ := Option.isSome_iff_exists.mp (minKey_isSome obs h)
  obtain ⟨M, hM⟩ := Option.isSome_iff_exists.mp (maxKey_isSome obs h)
  obtain ⟨p, hp, hpM⟩ := maxKey_mem obs M hM
  have h1 := minKey_le obs m hm p hp
  simp [firstDateOf, lastDateOf, hm, hM]
  omega

/-- The first date of the bounds carries an observed value. -/
theorem lookupObs_firstDateOf (obs : ObsRates) (h : obs ≠ []) :
    ∃ v, lookupObs obs (firstDateOf obs) = some v := by
  obtain ⟨m, hm⟩ := Option.isSome_iff_exists.mp (minKey_isSome obs h)
  obtain ⟨p, hp, hpm⟩ := minKey_mem obs m hm
  have : firstDateOf obs = p.1 := by simp [firstDateOf, hm, hpm]
  rw [this]
  exact lookupObs_of_key obs p hp

/-- The last date of the bounds carries an observed value. -/
theorem lookupObs_lastDateOf (obs : ObsRates) (h : obs ≠ []) :
    ∃ v, lookupObs obs (lastDateOf obs) = some v := by
  obtain ⟨M, hM⟩ := Option.isSome_iff_exists.mp (maxKey_isSome obs h)
  obtain ⟨p, hp, hpM⟩ := maxKey_mem obs M hM
  have : lastDateOf obs = p.1 := by simp [lastDateOf, hM, hpM]
  rw [this]
  exact lookupObs_of_key obs p hp

end CurrencyConv

namespace CurrencyConv

/-! ### Lemmas: the loaded dict -/

/-- Length of the filled value list: one entry per date of the bounds. -/
theorem length_currencyFilled (cfg : Config) (obs : ObsRates) :
    (currencyFilled cfg obs).length = lastDateOf obs + 1 - firstDateOf obs := by
  simp only [currencyFilled]
  split_ifs <;>
    simp [length_use_linear_interpolation, length_use_last_known, length_mat_list]

/-- An observed entry survives materialization and either fill method. -/
theorem currencyFilled_obs (cfg : Config) (obs : ObsRates) (i : Nat) (r : ℚ)
    (h : i < lastDateOf obs + 1 - firstDateOf obs)
    (hobs : lookupObs obs (firstDateOf obs + i) = some r) :
    (currencyFilled cfg obs)[i]? = some (some r) := by
  have hmat : (mat_list obs (firstDateOf obs) (lastDateOf obs))[i]? = some (some r) := by
    rw [getElem?_mat_list _ _ _ _ h, hobs]
  simp only [currencyFilled]
  split_ifs with h1 h2 h3
  · exact use_linear_interpolation_obs _ i r hmat
  · exact use_last_known_obs _ none i r hmat
  · exact hmat
  · exact hmat

/-- In-range dict lookup reads the filled value list. -/
theorem ratesLookup_inRange (st : LoadedState) (cur : String) (obs : ObsRates) (d : Nat)
    (hcur : lookupTable st.ratesTable cur = some obs)
    (h1 : firstDateOf obs ≤ d) (h2 : d ≤ lastDateOf obs) :
    ratesLookup st cur d = (currencyFilled st.cfg obs)[d - firstDateOf obs]? := by
  simp [ratesLookup, hcur, h1, h2]

/-- In-range dates are keys of the loaded dict. -/
theorem ratesLookup_isSome_inRange (st : LoadedState) (cur : String) (obs : ObsRates) (d : Nat)
    (hcur : lookupTable st.ratesTable cur = some obs)
    (h1 : firstDateOf obs ≤ d) (h2 : d ≤ lastDateOf obs) :
    (ratesLookup st cur d).isSome := by
  rw [ratesLookup_inRange st cur obs d hcur h1 h2]
  have : d - firstDateOf obs < (currencyFilled st.cfg obs).length := by
    rw [length_currencyFilled]; omega
  simp [List.getElem?_eq_getElem this]

/-- Out-of-range dates are not keys of the loaded dict. -/
theorem ratesLookup_outside (st : LoadedState) (cur : String) (obs : ObsRates) (d : Nat)
    (hcur : lookupTable st.ratesTable cur = some obs)
    (h : d < firstDateOf obs ∨ lastDateOf obs < d) :
    ratesLookup st cur d = none := by
  have : ¬ (firstDateOf obs ≤ d ∧ d ≤ lastDateOf obs) := by omega
  simp [ratesLookup, hcur, this]

/-- The bounds of a non-reference loaded currency. -/
theorem boundsOf_of_lookup (st : LoadedState) (cur : String) (obs : ObsRates)
    (hcur : lookupTable st.ratesTable cur = some obs) (href : cur ≠ st.cfg.refCurrency) :
    boundsOf st cur = some (firstDateOf obs, lastDateOf obs) := by
  simp [boundsOf, href, hcur]

/-- Resolution at a boundary date of a nonempty loaded currency returns the
observed rate stored there. -/
theorem rateAt_firstDate (st : LoadedState) (cur : String) (obs : ObsRates)
    (hcur : lookupTable st.ratesTable cur = some obs) (hne : obs ≠ []) :
    ∃ r, ratesLookup st cur (firstDateOf obs) = some (some r) ∧
      rateAt st cur (firstDateOf obs) = .ok r := by
  obtain ⟨r, hr⟩ := lookupObs_firstDateOf obs hne
  have hle := firstDateOf_le_lastDateOf obs hne
  have hfill : (currencyFilled st.cfg obs)[0]? = some (some r) := by
    apply currencyFilled_obs st.cfg obs 0 r (by omega)
    simpa using hr
  have hlook : ratesLookup st cur (firstDateOf obs) = some (some r) := by
    rw [ratesLookup_inRange st cur obs _ hcur (by omega) hle]
    simpa using hfill
  exact ⟨r, hlook, by rw [rateAt, hlook]⟩

/-- Resolution at the last date of a nonempty loaded currency returns the
observed rate stored there. -/
theorem rateAt_lastDate (st : LoadedState) (cur : String) (obs : ObsRates)
    (hcur : lookupTable st.ratesTable cur = some obs) (hne : obs ≠ []) :
    ∃ r, ratesLookup st cur (lastDateOf obs) = some (some r) ∧
      rateAt st cur (lastDateOf obs) = .ok r := by
  obtain ⟨r, hr⟩ := lookupObs_lastDateOf obs hne
  have hle := firstDateOf_le_lastDateOf obs hne
  have hfill : (currencyFilled st.cfg obs)[lastDateOf obs - firstDateOf obs]? = some (some r) := by
    apply currencyFilled_obs st.cfg obs _ r (by omega)
    have heq : firstDateOf obs + (lastDateOf obs - firstDateOf obs) = lastDateOf obs := by omega
    rw [heq]
    exact hr
  have hlook : ratesLookup st cur (lastDateOf obs) = some (some r) := by
    rw [ratesLookup_inRange st cur obs _ hcur hle (by omega)]
    exact hfill
  exact ⟨r, hlook, by rw [rateAt, hlook]⟩

end CurrencyConv

namespace CurrencyConv

/-! ### Concrete fixtures

The table of the repository's own test suite (`TestCustomObject`,
restricted to the USD column): USD observed at 2014-03-23 = 18,
2014-03-27 = 6, 2014-03-29 = 2, with EUR as reference currency.
-/

/-- Linear-interpolation configuration (missing-rate fallback enabled). -/
def cfgLI : Config := ⟨false, true, "linear_interpolation", "EUR", ["", "N/A"]⟩

/-- Last-known configuration (missing-rate fallback enabled). -/
def cfgLK : Config := ⟨false, true, "last_known", "EUR", ["", "N/A"]⟩

/-- Default-style configuration (both fallbacks disabled). -/
def cfgPlain : Config := ⟨false, false, "linear_interpolation", "EUR", ["", "N/A"]⟩

/-- A configuration with an unrecognized fill-method name and the
missing-rate fallback disabled. -/
def cfgBogus : Config := ⟨false, false, "bogus", "EUR", ["", "N/A"]⟩

/-- The USD test table. -/
def tblTest : List String := ["Date,USD", "2014-03-29,2", "2014-03-27,6", "2014-03-23,18"]

/-- The USD test table with 2014-03-26 present as an explicit `N/A` token. -/
def tblTestNA : List String :=
  ["Date,USD", "2014-03-29,2", "2014-03-26,N/A", "2014-03-23,18"]

/-- Ordinal of 2014-03-26. -/
def dMar26 : Nat := toOrdinal ⟨2014, 3, 26⟩

/-- Ordinal of 2014-03-29. -/
def dMar29 : Nat := toOrdinal ⟨2014, 3, 29⟩

/-- A converter whose reference currency is not `EUR` and whose table has no
`EUR` column (one currency `AAA`, observed on a single date). -/
def stRefUSD : LoadedState :=
  ⟨⟨false, false, "linear_interpolation", "USD", ["", "N/A"]⟩, [("AAA", [(5, 2)])]⟩

/-- A one-entry observed map, fixture for the materialization invariant. -/
def obsMapX : Nat → Option (Option ℚ) := fun d => if d = 3 then some (some 1) else none

/-! ### Remaining resolver helpers -/

/-- The final dict read of `_get_rate` never raises the internal assertion. -/
theorem rateAt_ne_assertion (st : LoadedState) (cur : String) (d : Nat) :
    rateAt st cur d ≠ .error .assertionFailed := by
  rw [rateAt]
  cases ratesLookup st cur d with
  | none => simp
  | some v => cases v <;> simp

/-- Inversion of `boundsOf` for a non-reference currency. -/
theorem boundsOf_inv (st : LoadedState) (cur : String) (first last : Nat)
    (href : cur ≠ st.cfg.refCurrency) (hb : boundsOf st cur = some (first, last)) :
    ∃ obs, lookupTable st.ratesTable cur = some obs ∧
      firstDateOf obs = first ∧ lastDateOf obs = last := by
  rw [boundsOf, if_neg href] at hb
  cases hl : lookupTable st.ratesTable cur with
  | none => rw [hl] at hb; simp at hb
  | some obs =>
    rw [hl] at hb
    simp only [Option.map_some', Option.some.injEq, Prod.mk.injEq] at hb
    exact ⟨obs, rfl, hb.1, hb.2⟩

end CurrencyConv

namespace CurrencyConv

/-! ### Claim theorems -/

/-- C1: with the missing-rate fallback enabled and the linear-interpolation
method selected, every materialized-missing entry of a currency's value
list whose nearest earlier observed rate is `r0` at distance `d0 = i - j`
days and nearest later observed rate is `r1` at distance `d1 = k - i` days
is filled with `(r0·d1 + r1·d0) / (d0 + d1)`; in particular, loading the
table with USD observed at 2014-03-23 = 18, 2014-03-27 = 6, 2014-03-29 = 2
(reference EUR) and resolving USD at 2014-03-26 yields 9. -/
theorem c1_linear_interpolation :
    (∀ (l : List (Option ℚ)) (i j k : Nat) (r0 r1 : ℚ),
      l[j]? = some (some r0) → l[k]? = some (some r1) →
      j < i → i < k →
      (∀ t, j < t → t < i → l[t]? = some none) →
      (∀ t, i < t → t < k → l[t]? = some none) →
      l[i]? = some none →
      (use_linear_interpolation l)[i]? =
        some (some ((r0 * ((k - i : Nat) : ℚ) + r1 * ((i - j : Nat) : ℚ)) /
          (((i - j : Nat) : ℚ) + ((k - i : Nat) : ℚ))))) ∧
    (loadLines cfgLI tblTest).map (fun st => get_rate st "USD" dMar26) = .ok (.ok 9) := by
  constructor
  · intro l i j k r0 r1 hj hk hji hik hgapl hgapr hi
    exact use_linear_interpolation_missing l i j k r0 r1 hj hk hji hik hgapl hgapr hi
  · decide!

/-- C1 witness: on the value list `[1, missing, 2]` the missing entry is
filled with `(1·1 + 2·1) / (1 + 1) = 3/2`. -/
theorem c1_witness :
    (use_linear_interpolation [some 1, none, some 2])[1]? =
      some (some (((1 : ℚ) * ((2 - 1 : Nat) : ℚ) + (2 : ℚ) * ((1 - 0 : Nat) : ℚ)) /
        (((1 - 0 : Nat) : ℚ) + ((2 - 1 : Nat) : ℚ)))) := by
  have hgap1 : ∀ t, 0 < t → t < 1 → ([some 1, none, some 2] : List (Option ℚ))[t]? = some none := by
    intro t h1 h2
    omega
  have hgap2 : ∀ t, 1 < t → t < 2 → ([some 1, none, some 2] : List (Option ℚ))[t]? = some none := by
    intro t h1 h2
    omega
  exact c1_linear_interpolation.1 [some 1, none, some 2] 1 0 2 1 2 (by decide) (by decide)
    (by decide) (by decide) hgap1 hgap2 (by decide)

/-- C2 counterexample: with the last-known method, resolving USD at
2014-03-26 on the test table returns 18 (the most recent prior observation,
18 at 2014-03-23) — not 6 as the claim's concrete scenario states. -/
theorem c2_counterexample :
    (loadLines cfgLK tblTest).map (fun st => get_rate st "USD" dMar26) = .ok (.ok 18) ∧
    (loadLines cfgLK tblTest).map (fun st => get_rate st "USD" dMar26) ≠ .ok (.ok 6) := by
  decide!

/-- C2 (amended): with the missing-rate fallback enabled and the last-known
method selected, every missing entry takes the most recently observed
(non-missing) value at or before it; in particular, for the test table,
resolving USD at 2014-03-26 returns 18, the value observed at 2014-03-23. -/
theorem c2_last_known :
    (∀ (l : List (Option ℚ)) (st : Option ℚ) (i j : Nat) (r : ℚ),
      l[j]? = some (some r) → j < i →
      (∀ t, j < t → t < i → l[t]? = some none) →
      l[i]? = some none →
      (use_last_known st l)[i]? = some (some r)) ∧
    (loadLines cfgLK tblTest).map (fun st => get_rate st "USD" dMar26) = .ok (.ok 18) := by
  constructor
  · intro l st i j r hj hji hgap hi
    exact use_last_known_missing l st i j r hj hji hgap hi
  · decide!

/-- C2 witness: on the value list `[7, missing, missing]` the last missing
entry takes the value 7. -/
theorem c2_witness :
    (use_last_known none [some 7, none, none])[2]? = some (some 7) := by
  have hgap : ∀ t, 0 < t → t < 2 → ([some 7, none, none] : List (Option ℚ))[t]? = some none := by
    intro t h1 h2
    have ht : t = 1 := by omega
    subst ht
    decide
  exact c2_last_known.1 [some 7, none, none] none 2 0 7 (by decide) (by decide) hgap (by decide)

/-- C9: conversion from the reference currency to itself is the exact
identity for every amount and every date whatsoever — resolution of the
reference currency returns 1 unconditionally, with no dict lookup and no
bounds check. -/
theorem c9_identity_conversion (st : LoadedState) (x : ℚ) (d : Nat) :
    get_rate st st.cfg.refCurrency d = .ok 1 ∧
    convert st x st.cfg.refCurrency st.cfg.refCurrency (some d) = .ok x := by
  have hget : get_rate st st.cfg.refCurrency d = .ok 1 := by
    rw [get_rate, if_pos rfl]
  have hmem : currenciesOf st st.cfg.refCurrency = true := by
    simp [currenciesOf]
  refine ⟨hget, ?_⟩
  rw [convert]
  rw [if_neg (by simp [hmem]), if_neg (by simp [hmem])]
  simp only [hget]
  norm_num

/-- C7: for member currencies `A`, `B` and a date at which both resolve,
`convert(x, A, B, d)` equals `x / resolve(A, d) * resolve(B, d)` exactly;
in particular, on the test table (where EUR is the reference and USD
resolves to 2 at 2014-03-29), `convert(10, EUR, USD, 2014-03-29)` is 20. -/
theorem c7_convert_formula :
    (∀ (st : LoadedState) (x r0 r1 : ℚ) (A B : String) (d : Nat),
      currenciesOf st A = true → currenciesOf st B = true →
      get_rate st A d = .ok r0 → get_rate st B d = .ok r1 →
      convert st x A B (some d) = .ok (x / r0 * r1)) ∧
    (loadLines cfgPlain tblTest).map (fun st => get_rate st "USD" dMar29) = .ok (.ok 2) ∧
    (loadLines cfgPlain tblTest).map (fun st => convert st 10 "EUR" "USD" (some dMar29)) =
      .ok (.ok 20) := by
  refine ⟨?_, by decide!, by decide!⟩
  intro st x r0 r1 A B d hA hB h0 h1
  rw [convert]
  rw [if_neg (by simp [hA]), if_neg (by simp [hB])]
  simp only [h0, h1]

/-- The state produced by loading the test table (checked below in the C7
witness). -/
def stPlain : LoadedState :=
  ⟨cfgPlain, [("USD", [(toOrdinal ⟨2014, 3, 29⟩, 2), (toOrdinal ⟨2014, 3, 27⟩, 6),
    (toOrdinal ⟨2014, 3, 23⟩, 18)])]⟩

/-- C7 witness: applying the conversion formula to the loaded test table at
2014-03-29: `convert(10, EUR, USD)` computes `10 / 1 * 2` there. -/
theorem c7_witness :
    loadLines cfgPlain tblTest = .ok stPlain ∧
    convert stPlain 10 "EUR" "USD" (some dMar29) = .ok ((10 : ℚ) / 1 * 2) :=
  ⟨by decide!,
   c7_convert_formula.1 stPlain 10 1 2 "EUR" "USD" dMar29 (by decide!) (by decide!)
     (by decide!) (by decide!)⟩

end CurrencyConv

namespace CurrencyConv

/-- C3: for a loaded non-reference currency and a requested date strictly
outside its bounds, resolution raises `RateNotFoundError` when the
wrong-date fallback is disabled, and returns the rate stored at the clamped
boundary date (`first_date` when the request is before the range,
`last_date` when after) when it is enabled. -/
theorem c3_wrong_date_fallback (cfg : Config) (lines : List String) (st : LoadedState)
    (currency : String) (obs : ObsRates) (d : Nat)
    (hload : loadLines cfg lines = .ok st)
    (hcur : lookupTable st.ratesTable currency = some obs) (hne : obs ≠ [])
    (href : currency ≠ st.cfg.refCurrency)
    (hout : d < firstDateOf obs ∨ lastDateOf obs < d) :
    (st.cfg.fallbackOnWrongDate = false →
      get_rate st currency d =
        .error (.notInBounds d currency (firstDateOf obs) (lastDateOf obs))) ∧
    (st.cfg.fallbackOnWrongDate = true →
      ∃ r, ratesLookup st currency
          (if d < firstDateOf obs then firstDateOf obs else lastDateOf obs) = some (some r) ∧
        get_rate st currency d = .ok r) := by
  have hlook := ratesLookup_outside st currency obs d hcur hout
  have hbounds := boundsOf_of_lookup st currency obs hcur href
  have hle := firstDateOf_le_lastDateOf obs hne
  have hstep : get_rate st currency d =
      (if st.cfg.fallbackOnWrongDate = false then
        .error (.notInBounds d currency (firstDateOf obs) (lastDateOf obs))
      else if d < firstDateOf obs then rateAt st currency (firstDateOf obs)
      else if d > lastDateOf obs then rateAt st currency (lastDateOf obs)
      else .error .assertionFailed) := by
    rw [get_rate, if_neg href, hlook]
    simp only [Option.isSome_none, Bool.false_eq_true, if_false, hbounds]
  constructor
  · intro hfb
    rw [hstep, if_pos hfb]
  · intro hfb
    have hnotfalse : ¬ st.cfg.fallbackOnWrongDate = false := by rw [hfb]; simp
    rcases hout with hbefore | hafter
    · obtain ⟨r, hr, hok⟩ := rateAt_firstDate st currency obs hcur hne
      refine ⟨r, ?_, ?_⟩
      · rw [if_pos hbefore]; exact hr
      · rw [hstep, if_neg hnotfalse, if_pos hbefore]; exact hok
    · obtain ⟨r, hr, hok⟩ := rateAt_lastDate st currency obs hcur hne
      have hnb : ¬ d < firstDateOf obs := by omega
      refine ⟨r, ?_, ?_⟩
      · rw [if_neg hnb]; exact hr
      · rw [hstep, if_neg hnotfalse, if_neg hnb, if_pos (by omega : d > lastDateOf obs)]
        exact hok

/-- The state produced by loading the test table with both fallbacks
disabled is `stPlain`; checked in the C3 witness, which then resolves USD
at the out-of-range date 2015-01-01 under both fallback settings. -/
def stWrongDate : LoadedState :=
  ⟨⟨true, false, "linear_interpolation", "EUR", ["", "N/A"]⟩,
   [("USD", [(toOrdinal ⟨2014, 3, 29⟩, 2), (toOrdinal ⟨2014, 3, 27⟩, 6),
     (toOrdinal ⟨2014, 3, 23⟩, 18)])]⟩

/-- C3 witness: on the loaded test table, resolving USD at 2015-01-01 (after
the range) errors without the wrong-date fallback and clamps to the last
date with it. -/
theorem c3_witness :
    (get_rate stPlain "USD" (toOrdinal ⟨2015, 1, 1⟩) =
      .error (.notInBounds (toOrdinal ⟨2015, 1, 1⟩) "USD"
        (firstDateOf [(toOrdinal ⟨2014, 3, 29⟩, 2), (toOrdinal ⟨2014, 3, 27⟩, 6),
          (toOrdinal ⟨2014, 3, 23⟩, 18)])
        (lastDateOf [(toOrdinal ⟨2014, 3, 29⟩, 2), (toOrdinal ⟨2014, 3, 27⟩, 6),
          (toOrdinal ⟨2014, 3, 23⟩, 18)]))) ∧
    (∃ r, ratesLookup stWrongDate "USD"
        (if toOrdinal ⟨2015, 1, 1⟩ < firstDateOf [(toOrdinal ⟨2014, 3, 29⟩, 2),
            (toOrdinal ⟨2014, 3, 27⟩, 6), (toOrdinal ⟨2014, 3, 23⟩, 18)] then
          firstDateOf [(toOrdinal ⟨2014, 3, 29⟩, 2), (toOrdinal ⟨2014, 3, 27⟩, 6),
            (toOrdinal ⟨2014, 3, 23⟩, 18)]
        else lastDateOf [(toOrdinal ⟨2014, 3, 29⟩, 2), (toOrdinal ⟨2014, 3, 27⟩, 6),
            (toOrdinal ⟨2014, 3, 23⟩, 18)]) = some (some r) ∧
      get_rate stWrongDate "USD" (toOrdinal ⟨2015, 1, 1⟩) = .ok r) :=
  ⟨(c3_wrong_date_fallback cfgPlain tblTest stPlain "USD" _ (toOrdinal ⟨2015, 1, 1⟩)
      (by decide!) (by decide!) (by decide!) (by decide!) (by right; decide!)).1 (by decide!),
   (c3_wrong_date_fallback ⟨true, false, "linear_interpolation", "EUR", ["", "N/A"]⟩ tblTest
      stWrongDate "USD" _ (toOrdinal ⟨2015, 1, 1⟩)
      (by decide!) (by decide!) (by decide!) (by decide!) (by right; decide!)).2 (by decide!)⟩

/-- C4: with the missing-rate fallback disabled, resolving a loaded
non-reference currency at an in-bounds date with no observed entry (the
situation produced by a missing-value raw token at that date) raises
`RateNotFoundError`; and `convert` mutates no converter state, so any later
call behaves exactly as if the failing call had never happened. -/
theorem c4_missing_rate_error (cfg : Config) (lines : List String) (st : LoadedState)
    (currency : String) (obs : ObsRates) (d : Nat)
    (hload : loadLines cfg lines = .ok st)
    (hnofb : st.cfg.fallbackOnMissingRate = false)
    (hcur : lookupTable st.ratesTable currency = some obs)
    (href : currency ≠ st.cfg.refCurrency)
    (hin1 : firstDateOf obs ≤ d) (hin2 : d ≤ lastDateOf obs)
    (hna : lookupObs obs d = none) :
    get_rate st currency d = .error (.noRate currency d) ∧
    (∀ (a1 : ℚ) (c1 n1 : String) (d1 : Option Nat) (a2 : ℚ) (c2 n2 : String) (d2 : Option Nat),
      (convertWithState st a1 c1 n1 d1).2 = st ∧
      convert (convertWithState st a1 c1 n1 d1).2 a2 c2 n2 d2 = convert st a2 c2 n2 d2) := by
  have hnofill : currencyFilled st.cfg obs =
      mat_list obs (firstDateOf obs) (lastDateOf obs) := by
    rw [currencyFilled, if_neg (by rw [hnofb]; simp)]
  have hlook : ratesLookup st currency d = some none := by
    rw [ratesLookup_inRange st currency obs d hcur hin1 hin2, hnofill]
    rw [getElem?_mat_list obs _ _ _ (by omega)]
    have heq : firstDateOf obs + (d - firstDateOf obs) = d := by omega
    rw [heq, hna]
  constructor
  · rw [get_rate, if_neg href, if_pos (by rw [hlook]; simp), rateAt, hlook]
  · intro a1 c1 n1 d1 a2 c2 n2 d2
    exact ⟨rfl, rfl⟩

/-- The state produced by loading the table that carries an explicit `N/A`
token for USD at 2014-03-26 (checked in the C4 witness). -/
def stNA : LoadedState :=
  ⟨cfgPlain, [("USD", [(toOrdinal ⟨2014, 3, 29⟩, 2), (toOrdinal ⟨2014, 3, 23⟩, 18)])]⟩

/-- C4 witness: loading `tblTestNA` (whose 2014-03-26 USD token is `N/A`)
records no entry for that date, and resolving USD there with the fallback
disabled raises the no-rate error while leaving the state unchanged. -/
theorem c4_witness :
    loadLines cfgPlain tblTestNA = .ok stNA ∧
    get_rate stNA "USD" dMar26 = .error (.noRate "USD" dMar26) ∧
    (convertWithState stNA 10 "USD" "EUR" (some dMar26)).2 = stNA :=
  ⟨by decide!,
   (c4_missing_rate_error cfgPlain tblTestNA stNA "USD"
      [(toOrdinal ⟨2014, 3, 29⟩, 2), (toOrdinal ⟨2014, 3, 23⟩, 18)] dMar26
      (by decide!) (by decide!) (by decide!) (by decide!) (by decide!) (by decide!)
      (by decide!)).1,
   ((c4_missing_rate_error cfgPlain tblTestNA stNA "USD"
      [(toOrdinal ⟨2014, 3, 29⟩, 2), (toOrdinal ⟨2014, 3, 23⟩, 18)] dMar26
      (by decide!) (by decide!) (by decide!) (by decide!) (by decide!) (by decide!)
      (by decide!)).2
      10 "USD" "EUR" (some dMar26) 10 "USD" "EUR" (some dMar26)).1⟩

end CurrencyConv

namespace CurrencyConv

/-- C5 counterexample: a configuration with the unrecognized fill-method
name `"bogus"` but `fallback_on_missing_rate` disabled loads the test table
without any error — and conversion then works — contradicting the claim
that an unrecognized method name fails loading regardless of the other
configuration flags. -/
theorem c5_counterexample :
    (loadLines cfgBogus tblTest).map
      (fun st => convert st 10 "EUR" "USD" (some dMar29)) = .ok (.ok 20) ∧
    (loadLines cfgBogus tblTest).isOk = true := by
  decide!

/-- C5 (amended): the unrecognized-method `ValueError` of `load_lines` is
raised at load time, before any convert call is possible, but only when
`fallback_on_missing_rate` is enabled (the method string is never examined
otherwise): with it enabled, no load with an unrecognized method name can
succeed; with it disabled, the same method name loads fine. -/
theorem c5_unknown_method :
    (∀ (cfg : Config) (lines : List String) (st : LoadedState),
      cfg.fallbackOnMissingRate = true →
      cfg.fallbackOnMissingRateMethod ≠ "linear_interpolation" →
      cfg.fallbackOnMissingRateMethod ≠ "last_known" →
      loadLines cfg lines ≠ .ok st) ∧
    (loadLines cfgBogus tblTest).isOk = true := by
  constructor
  · intro cfg lines st h1 h2 h3 hok
    cases lines with
    | nil => simp [loadLines] at hok
    | cons headerLine dataLines =>
      rw [loadLines] at hok
      cases hbuild : buildRatesTable cfg (tokenizeLine headerLine).tail dataLines with
      | error e => rw [hbuild] at hok; simp [Except.bind] at hok
      | ok tbl =>
        rw [hbuild] at hok
        simp only [Except.bind] at hok
        by_cases hemp : tbl.isEmpty
        · rw [if_pos hemp] at hok; exact Except.noConfusion hok
        · rw [if_neg hemp, if_pos ⟨h1, h2, h3⟩] at hok
          exact Except.noConfusion hok
  · decide!

/-- C5 witness: with the fallback enabled, loading the test table under the
method name `"bogus"` indeed cannot produce a loaded state. -/
theorem c5_witness :
    loadLines ⟨false, true, "bogus", "EUR", ["", "N/A"]⟩ tblTest ≠
      .ok ⟨⟨false, true, "bogus", "EUR", ["", "N/A"]⟩, []⟩ :=
  c5_unknown_method.1 ⟨false, true, "bogus", "EUR", ["", "N/A"]⟩ tblTest
    ⟨⟨false, true, "bogus", "EUR", ["", "N/A"]⟩, []⟩ (by decide) (by decide) (by decide)

/-- C6 counterexample: on `"2014-13-01"` the first parse fails with a
value-range `ValueError` (month 13), and `parse_date` does attempt the
`strptime` fallback — its final error is the `strptime` no-match failure,
not the range error that the spec's description (fallback only on
structural failure, modelled by `parseDateSpec`) would surface. -/
theorem c6_counterexample :
    primaryParse "2014-13-01".toList = .error .dateRange ∧
    parse_date "2014-13-01" = .error .strptimeNoMatch ∧
    parseDateSpec "2014-13-01" = .error .primaryRange ∧
    parse_date "2014-13-01" ≠ parseDateSpec "2014-13-01" := by
  decide!

/-- C6 (amended): `parse_date` attempts the `%Y-%m-%d` parse first and falls
back to the `DD Month YYYY` format whenever the first attempt raises a
`ValueError` — structural or value-range alike (the bare `except
ValueError` catches both); when the first attempt succeeds no fallback
happens, and when neither format matches the result is a parse error. -/
theorem c6_parse_date :
    (∀ (s : String) (d : PyDate), primaryParse s.toList = .ok d → parse_date s = .ok d) ∧
    (∀ (s : String) (e : PrimFail), primaryParse s.toList = .error e →
      parse_date s = (match secondaryParse s.toList with
                      | some d => .ok d
                      | none => .error .strptimeNoMatch)) ∧
    parse_date "2014-03-26" = .ok ⟨2014, 3, 26⟩ ∧
    parse_date "01 January 2020" = .ok ⟨2020, 1, 1⟩ ∧
    parse_date "2014-13-01" = .error .strptimeNoMatch := by
  refine ⟨?_, ?_, by decide!, by decide!, by decide!⟩
  · intro s d h
    rw [parse_date, h]
  · intro s e h
    rw [parse_date, h]

/-- C6 witness: the two general clauses of the amended claim applied to
`"2014-03-26"` (primary success) and `"2014-13-01"` (primary failure). -/
theorem c6_witness :
    parse_date "2014-03-26" = .ok ⟨2014, 3, 26⟩ ∧
    parse_date "2014-13-01" = (match secondaryParse "2014-13-01".toList with
                               | some d => .ok d
                               | none => .error .strptimeNoMatch) :=
  ⟨c6_parse_date.1 "2014-03-26" ⟨2014, 3, 26⟩ (by decide!),
   c6_parse_date.2.1 "2014-13-01" .dateRange (by decide!)⟩

/-- C8: after materialization a currency's dict has exactly the dates of its
bounds as keys (given that the observed keys lie within the bounds, as the
min/max construction guarantees), and consequently the `should never
happen` assertion branch of `_get_rate` — reachable only for an in-bounds
date absent from the dict — can never be taken on a loaded converter. -/
theorem c8_materialization_invariant :
    (∀ (rates : Nat → Option (Option ℚ)) (first last d : Nat),
      (∀ x, (rates x).isSome → first ≤ x ∧ x ≤ last) →
      ((set_missing_to_none rates first last d).isSome ↔ (first ≤ d ∧ d ≤ last))) ∧
    (∀ (st : LoadedState) (currency : String) (d : Nat),
      get_rate st currency d ≠ .error .assertionFailed) := by
  constructor
  · intro rates first last d hdom
    rw [set_missing_to_none, fillDates_apply]
    cases hr : rates d with
    | some v =>
      simp only [Option.isSome_some, true_iff]
      exact hdom d (by rw [hr]; rfl)
    | none =>
      by_cases hmem : d ∈ list_dates_between first last
      · rw [if_pos hmem]
        simp only [Option.isSome_some, true_iff]
        exact (mem_list_dates_between first last d).mp hmem
      · rw [if_neg hmem]
        simp only [Option.isSome_none, Bool.false_eq_true, false_iff]
        intro hcon
        exact hmem ((mem_list_dates_between first last d).mpr hcon)
  · intro st currency d hcon
    rw [get_rate] at hcon
    by_cases h1 : currency = st.cfg.refCurrency
    · rw [if_pos h1] at hcon; exact Except.noConfusion hcon
    · rw [if_neg h1] at hcon
      by_cases h2 : (ratesLookup st currency d).isSome
      · rw [if_pos h2] at hcon
        exact rateAt_ne_assertion st currency d hcon
      · rw [if_neg h2] at hcon
        cases hb : boundsOf st currency with
        | none => rw [hb] at hcon; simp at hcon
        | some fl =>
          obtain ⟨first, last⟩ := fl
          rw [hb] at hcon
          have hcon2 : (if st.cfg.fallbackOnWrongDate = false then
                (Except.error (GetRateError.notInBounds d currency first last) :
                  Except GetRateError ℚ)
              else if d < first then rateAt st currency first
              else if d > last then rateAt st currency last
              else .error .assertionFailed) = .error .assertionFailed := hcon
          by_cases h3 : st.cfg.fallbackOnWrongDate = false
          · rw [if_pos h3] at hcon2; simp at hcon2
          · rw [if_neg h3] at hcon2
            by_cases h4 : d < first
            · rw [if_pos h4] at hcon2
              exact rateAt_ne_assertion st currency first hcon2
            · rw [if_neg h4] at hcon2
              by_cases h5 : d > last
              · rw [if_pos h5] at hcon2
                exact rateAt_ne_assertion st currency last hcon2
              · rw [if_neg h5] at hcon2
                obtain ⟨obs, hl, hf, hlst⟩ := boundsOf_inv st currency first last h1 hb
                exact h2 (ratesLookup_isSome_inRange st currency obs d hl
                  (by omega) (by omega))

/-- C8 witness: the key-set characterization applied to a one-entry observed
map with bounds 3..5, at the in-range date 4 and the out-of-range date 6;
the assertion-unreachability clause applied to a concrete state. -/
theorem c8_witness :
    ((set_missing_to_none obsMapX 3 5 4).isSome ↔ (3 ≤ 4 ∧ 4 ≤ 5)) ∧
    ((set_missing_to_none obsMapX 3 5 6).isSome ↔ (3 ≤ 6 ∧ 6 ≤ 5)) ∧
    get_rate stRefUSD "AAA" 7 ≠ .error .assertionFailed :=
  ⟨c8_materialization_invariant.1 obsMapX 3 5 4
     (by intro x hx
         by_cases h : x = 3
         · subst h; omega
         · exfalso; simp [obsMapX, h] at hx),
   c8_materialization_invariant.1 obsMapX 3 5 6
     (by intro x hx
         by_cases h : x = 3
         · subst h; omega
         · exfalso; simp [obsMapX, h] at hx),
   c8_materialization_invariant.2 stRefUSD "AAA" 7⟩

/-- C10: the defaulted target currency of `convert` is the literal string
`"EUR"`, not the configured reference currency: on a converter whose
reference currency `R` differs from `"EUR"` and whose table has no `"EUR"`
entry, every `convert(x, c)` call with the target omitted raises the
invalid-currency error, while `convert(x, c, R)` succeeds (computing
`x / r * 1`) whenever `c` is a member currency resolving to `r` at the
requested date. -/
theorem c10_default_target (st : LoadedState)
    (href : st.cfg.refCurrency ≠ "EUR")
    (heur : st.ratesTable.any (fun p => p.1 = "EUR") = false) :
    (∀ (x : ℚ) (c : String), ∃ cc, convertDefault st x c = .error (.invalidCurrency cc)) ∧
    (∀ (x r : ℚ) (c : String) (d : Nat), currenciesOf st c = true →
      get_rate st c d = .ok r →
      convert st x c st.cfg.refCurrency (some d) = .ok (x / r * 1)) := by
  have heurmem : currenciesOf st "EUR" = false := by
    rw [currenciesOf, heur]
    simp only [Bool.false_or]
    exact decide_eq_false (fun hcon => href hcon.symm)
  constructor
  · intro x c
    rw [convertDefault, convert]
    by_cases hc : currenciesOf st c = false
    · rw [if_pos hc]
      exact ⟨c, rfl⟩
    · rw [if_neg hc, if_pos heurmem]
      exact ⟨"EUR", rfl⟩
  · intro x r c d hc hr
    have hrefmem : currenciesOf st st.cfg.refCurrency = true := by
      simp [currenciesOf]
    have hrefrate : get_rate st st.cfg.refCurrency d = .ok 1 := by
      rw [get_rate, if_pos rfl]
    rw [convert, if_neg (by simp [hc]), if_neg (by simp [hrefmem])]
    simp only [hr, hrefrate]

/-- C10 witness: on the fixture whose reference currency is USD and whose
only table entry is AAA, `convert(1, AAA)` hits the invalid-currency error
(EUR is not a member) while `convert(1, AAA, USD)` succeeds. -/
theorem c10_witness :
    (∃ cc, convertDefault stRefUSD 1 "AAA" = .error (.invalidCurrency cc)) ∧
    convert stRefUSD 1 "AAA" stRefUSD.cfg.refCurrency (some 5) = .ok ((1 : ℚ) / 2 * 1) :=
  ⟨(c10_default_target stRefUSD (by decide) (by decide)).1 1 "AAA",
   (c10_default_target stRefUSD (by decide) (by decide)).2 1 2 "AAA" 5 (by decide) (by decide!)⟩

end CurrencyConv
